import Mathlib

/-!
Verification development for the glacier-upload multipart-upload engine.

The Python source is shallowly embedded as executable Lean definitions:

* byte strings and digests are `List Nat` (one `Nat` per byte);
* SHA-256 itself (`hashlib.sha256(...)`) is an external library call, so every
  embedded hash computation is parametrised by an abstract digest function
  `H : List Nat → List Nat`.  The Python code keeps digests hex-encoded and
  calls `binascii.unhexlify` before concatenating two digests for a parent
  hash; since hex encoding is a bijection that is inverted exactly at each
  use site, the embedding works directly with raw digest byte lists and `H`
  stands for "SHA-256 followed by hex encoding" composed with decoding, i.e.
  the digest-level combine `sha256(unhexlify a + unhexlify b).hexdigest()`
  is embedded as `H (a ++ b)`;
* fallible code (Python exceptions such as the `IndexError` raised by
  `tree[0]` on an empty list) is embedded with `Option`;
* the `while` loops of `calculate_total_tree_hash` and of the part-size
  replanner are embedded with explicit fuel; in both cases a sufficiency
  lemma below shows the fuel bound is never the reason a computation stops,
  so the fuel recursion computes exactly what the unbounded loop computes.
-/

/-- `MAX_UPLOAD_ATTEMPTS = 10` in `upload.py` (`MAX_ATTEMPTS = 10` in
`glacier.py`): retry budget for one part. -/
def MAX_UPLOAD_ATTEMPTS : Nat := 10

/-- `MAX_NUMBER_OF_PARTS = 10000` in `upload.py`. -/
def MAX_NUMBER_OF_PARTS : Nat := 10000

/-- `MIN_PART_SIZE_MB = 1` in `upload.py`. -/
def MIN_PART_SIZE_MB : Nat := 1

/-- `MAX_PART_SIZE_MB = 4 * 1024` in `upload.py`. -/
def MAX_PART_SIZE_MB : Nat := 4096

/-- One mebibyte, the leaf size `1024 * 1024` used by the tree hash. -/
def MB : Nat := 1048576

/-- Ceiling division on naturals; the exact value of Python's
`math.ceil(a / b)` for positive `b` (Python computes it through float
division, which agrees with exact division for all realistic sizes).
Written in the `(a - 1) / b + 1` form, which `ceilDiv_eq` below proves
equal to the usual `(a + b - 1) / b`. -/
def ceilDiv (a b : Nat) : Nat := if a = 0 then 0 else (a - 1) / b + 1

/-- The list `range(0, stop, step)` of Python for positive `step`. -/
def pyRange (stop step : Nat) : List Nat :=
  (List.range (ceilDiv stop step)).map (fun i => i * step)

/-- One pass of the inner `for i in range(0, len(tree), 2)` loop of
`calculate_total_tree_hash` (`glacier.py` lines 243-251): adjacent digests
are concatenated and hashed pairwise, and an unpaired final digest is
appended unchanged. -/
def combineLevel (H : List Nat → List Nat) : List (List Nat) → List (List Nat)
  | [] => []
  | [d] => [d]
  | d1 :: d2 :: rest => H (d1 ++ d2) :: combineLevel H rest

/-- The `while len(tree) > 1` loop of `calculate_total_tree_hash`, with
explicit fuel.  `totalTreeHashGo_length_one` below shows that fuel equal to
the initial list length always suffices to reach a single digest, so this
computes exactly what the Python loop computes. -/
def totalTreeHashGo (H : List Nat → List Nat) : Nat → List (List Nat) → List (List Nat)
  | 0, tree => tree
  | fuel + 1, tree =>
    if 1 < tree.length then totalTreeHashGo H fuel (combineLevel H tree) else tree

/-- `calculate_total_tree_hash(list_of_checksums)` from `glacier.py` lines
240-252 (identical in `main.py`).  The final `return tree[0]` raises
`IndexError` when the list is empty; that failure is the `none` of
`List.head?`. -/
def calculate_total_tree_hash (H : List Nat → List Nat) (cs : List (List Nat)) :
    Option (List Nat) :=
  (totalTreeHashGo H cs.length cs).head?

/-- `fp.seek(pos); fp.read(count)` on a file whose bytes are `file`. -/
def readRange (file : List Nat) (pos count : Nat) : List Nat :=
  (file.drop pos).take count

/-- `calculate_tree_hash(part, part_size)` from `glacier.py` lines 229-237
(identical in `main.py`): hash the 1 MiB chunks
`part[chunk_pos:chunk_pos+step]` for `chunk_pos` in
`range(0, min(len(part), part_size), step)`, then combine them with
`calculate_total_tree_hash`. -/
def calculate_tree_hash (H : List Nat → List Nat) (part : List Nat) (part_size : Nat) :
    Option (List Nat) :=
  calculate_total_tree_hash H
    ((pyRange (min part.length part_size) MB).map (fun pos => H (readRange part pos MB)))

/-- Spec-side description of the leaf decomposition (section 4.1 of the
spec): "split `bytes` into consecutive 1 MiB leaves (last leaf may be
shorter)".  Used only as the comparison point of the refinement claim about
`calculate_tree_hash`. -/
def specLeafSplit (b : List Nat) : List (List Nat) :=
  if h : b = [] then [] else b.take MB :: specLeafSplit (b.drop MB)
termination_by b.length
decreasing_by
  have hb : 0 < b.length := List.length_pos.mpr h
  simp only [List.length_drop, MB]
  omega

/-- A concrete stand-in digest function, used only to instantiate the
abstract hash parameter in witnesses. -/
def testHash (l : List Nat) : List Nat := [l.length % 256]

/-- The `while new_part_size < target_part_size` replanning loop of
`upload_archive` (`upload.py` lines 86-94), with explicit fuel.  The float
comparison `new_part_size < file_size_bytes / (10000 * 1024 * 1024)` is
embedded exactly as the equivalent integer comparison
`new_part_size * (10000 * 1024 * 1024) < file_size_bytes` (Python evaluates
it through float division, which agrees with exact arithmetic for all sizes
below 2^53 bytes).  Doubling from `MIN_PART_SIZE_MB = 1` either returns or
raises within 13 iterations, so fuel 13 always suffices (the fuel-exhaustion
branch is unreachable from `find_new_part_size`, as the characterisation
theorem below shows). -/
def newPartSizeGo (file_size : Nat) : Nat → Nat → Option Nat
  | 0, _ => none
  | fuel + 1, p =>
    if p * (10000 * MB) < file_size then
      if MAX_PART_SIZE_MB < 2 * p then none
      else newPartSizeGo file_size fuel (2 * p)
    else some p

/-- The replanned part size computed by `upload_archive` when the requested
part size yields more than `MAX_NUMBER_OF_PARTS` parts; `none` is the
`click.ClickException("Archive/upload size too large (more than 40 TB)")`. -/
def find_new_part_size (file_size : Nat) : Option Nat :=
  newPartSizeGo file_size 13 MIN_PART_SIZE_MB

/-- The part-size planning conditional of `upload_archive` (`upload.py`
lines 82-101): keep the requested size if it yields at most
`MAX_NUMBER_OF_PARTS` parts, otherwise replan (the interactive
`click.confirm` signal before adopting the new size is I/O and is outside
the embedding). -/
def plan_part_size (file_size part_size_mb : Nat) : Option Nat :=
  if MAX_NUMBER_OF_PARTS < ceilDiv file_size (part_size_mb * MB) then
    find_new_part_size file_size
  else some part_size_mb

/-- Assignment `part_list[k] = v` on the Python dict, embedded as pointwise
function update (the dict's keys are the part byte starts; an assignment to
a key outside the planned range would add a dict entry, which the update on
all of `Nat` models as well). -/
def setPart (pl : Nat → Option (List Nat)) (k : Nat) (v : Option (List Nat)) :
    Nat → Option (List Nat) :=
  fun x => if x = k then v else pl x

/-- The freshly initialised `part_list`: every byte start maps to `None`
(`upload.py` lines 130-132). -/
def initPartList : Nat → Option (List Nat) := fun _ => none

/-- The planned part byte starts `range(0, file_size_bytes, part_size_bytes)`
(`upload.py` line 131), in ascending order, which is also the iteration
order of the `part_list` dict. -/
def byteStarts (file_size part_size : Nat) : List Nat := pyRange file_size part_size

/-- The resume-verification loop of `multipart_upload` (`upload.py` lines
159-166): for each remote-reported part `(byte_start, reported digest)`,
re-read the same byte range locally, recompute its tree hash, and record it
in `part_list` exactly when it matches the reported digest.  A reported
range that reads no bytes makes `calculate_tree_hash` fail (`tree[0]`
IndexError), which aborts the whole loop: that crash is the `none`. -/
def verifyLoop (H : List Nat → List Nat) (file : List Nat) (part_size : Nat) :
    List (Nat × List Nat) → (Nat → Option (List Nat)) →
    Option (Nat → Option (List Nat))
  | [], pl => some pl
  | (b, d) :: rest, pl =>
    match calculate_tree_hash H (readRange file b part_size) part_size with
    | none => none
    | some c =>
      verifyLoop H file part_size rest (if c = d then setPart pl b (some c) else pl)

/-- The upload set `[part for part, checksum in part_list.items() if
checksum is None]` scheduled on the worker pool (`upload.py` lines
172-174). -/
def pendingJobs (file_size part_size : Nat) (pl : Nat → Option (List Nat)) : List Nat :=
  (byteStarts file_size part_size).filter (fun b => (pl b).isNone)

/-- The result-collection loop `for future in done: part_list[byte_start] =
future.result()` (`upload.py` lines 204-206), for the case where no future
raised: each completed part's checksum is written at its own byte start, in
whatever order the futures are iterated. -/
def fillResults (pl : Nat → Option (List Nat)) (results : List (Nat × List Nat)) :
    Nat → Option (List Nat) :=
  results.foldl (fun acc r => setPart acc r.1 (some r.2)) pl

/-- The first stored exception re-raised by `future.result()` when the
result-collection loop hits a failed future (`upload.py` line 206);
exceptions are identified by an opaque `Nat`. -/
def firstErr : List (Nat × Except Nat (List Nat)) → Option Nat
  | [] => none
  | (_, Except.error e) :: _ => some e
  | (_, Except.ok _) :: rest => firstErr rest

/-- The successfully returned `(byte_start, checksum)` pairs of a list of
finished futures. -/
def okResults : List (Nat × Except Nat (List Nat)) → List (Nat × List Nat)
  | [] => []
  | (b, Except.ok d) :: rest => (b, d) :: okResults rest
  | (_, Except.error _) :: rest => okResults rest

/-- Outcome of the post-pool branch of `multipart_upload` (`upload.py` lines
188-206): `aborted` is the `click.Abort` raised after cancelling the
not-yet-done futures and echoing "Upload can still be resumed. Upload ID:
{upload_id}"; `raised` is an exception re-raised by `future.result()` in the
supposedly clean branch; `filled` carries `list(part_list.values())` in key
order, ready for the root hash. -/
inductive PoolOutcome where
  | aborted (uploadId : Nat) (cancelled : List Nat)
  | raised (e : Nat)
  | filled (checksums : List (Option (List Nat)))
deriving DecidableEq

/-- The branch on `done, not_done = concurrent.futures.wait(...,
FIRST_EXCEPTION)` in `multipart_upload` (`upload.py` lines 188-206).
`done` holds each finished future's byte start with its result (checksum or
raised exception); `notDone` holds the byte starts of futures that were
still pending when the wait returned (all of them are cancelled). -/
def afterPool (uploadId file_size part_size : Nat) (pl : Nat → Option (List Nat))
    (done : List (Nat × Except Nat (List Nat))) (notDone : List Nat) : PoolOutcome :=
  if 0 < notDone.length then PoolOutcome.aborted uploadId notDone
  else
    match firstErr done with
    | some e => PoolOutcome.raised e
    | none =>
      PoolOutcome.filled ((byteStarts file_size part_size).map (fillResults pl (okResults done)))

/-- The fields of the `complete_multipart_upload` response that the code
reads (`upload.py` lines 219-221). -/
structure CompleteResponse where
  checksum : List Nat
  location : Nat
  archiveId : Nat
deriving DecidableEq

/-- Final outcome of `multipart_upload`: `success` records the locally
calculated total tree hash and the Glacier-returned checksum exactly as the
two `click.echo` lines print them; `aborted`/`raised` as in `PoolOutcome`;
`crashed` is an uncaught exception while assembling or hashing the checksum
list (a `None` entry or an empty list). -/
inductive UploadOutcome where
  | success (calculatedTreeHash glacierTreeHash : List Nat) (location archiveId : Nat)
  | aborted (uploadId : Nat) (cancelled : List Nat)
  | raised (e : Nat)
  | crashed
deriving DecidableEq

/-- Remote mutating calls the engine can issue after the worker pool has
finished: the completion request (`complete_multipart_upload`, carrying
`archiveSize` and the calculated checksum) and the session abort
(`abort_multipart_upload`, issued only by the separate
`manual_abort_upload` command). -/
inductive RemoteCall where
  | completeSession (archiveSize : Nat) (checksum : List Nat)
  | abortSession
deriving DecidableEq

/-- Assemble a value list that may contain `None` placeholders; `none`
models the exception a `None` entry eventually raises (inside
`binascii.unhexlify` when it is paired, or at the API-parameter boundary
when it survives to the checksum argument): in every case the run fails
before a successful completion. -/
def seqOption : List (Option (List Nat)) → Option (List (List Nat))
  | [] => some []
  | none :: _ => none
  | some d :: rest => (seqOption rest).map (fun l => d :: l)

/-- The completion tail of `multipart_upload` (`upload.py` lines 208-221):
compute `calculate_total_tree_hash(list(part_list.values()))`, issue
`complete_multipart_upload(..., archiveSize=str(file_size),
checksum=total_tree_hash)`, and echo the calculated hash, the
Glacier-returned hash, the location and the archive id.  The returned
checksum is only echoed; no branch compares it with the local hash. -/
def completeMultipart (H : List Nat → List Nat) (file_size : Nat)
    (values : List (Option (List Nat))) (resp : CompleteResponse) :
    UploadOutcome × List RemoteCall :=
  match seqOption values with
  | none => (UploadOutcome.crashed, [])
  | some cs =>
    match calculate_total_tree_hash H cs with
    | none => (UploadOutcome.crashed, [])
    | some th =>
      (UploadOutcome.success th resp.checksum resp.location resp.archiveId,
       [RemoteCall.completeSession file_size th])

/-- The whole post-pool tail of `multipart_upload` (`upload.py` lines
188-221): branch on the pool outcome, then complete.  The failure branches
issue no remote call at all  - in particular they never issue
`abort_multipart_upload`, leaving the session resumable. -/
def multipartFinish (H : List Nat → List Nat) (uploadId file_size part_size : Nat)
    (pl : Nat → Option (List Nat)) (done : List (Nat × Except Nat (List Nat)))
    (notDone : List Nat) (resp : CompleteResponse) : UploadOutcome × List RemoteCall :=
  match afterPool uploadId file_size part_size pl done notDone with
  | PoolOutcome.aborted uid c => (UploadOutcome.aborted uid c, [])
  | PoolOutcome.raised e => (UploadOutcome.raised e, [])
  | PoolOutcome.filled values => completeMultipart H file_size values resp

/-- The remote calls of `manual_abort_upload` (`manual_abort_upload.py`):
the only place in the code base that aborts a session. -/
def manual_abort_calls : List RemoteCall := [RemoteCall.abortSession]

/-- The sequential full recomputation `for byte_pos in range(0, file_size,
part_size): ... calculate_tree_hash(part, part_size)` of `glacier.py` lines
167-173. -/
def recalcChecksums (H : List Nat → List Nat) (file : List Nat)
    (file_size part_size : Nat) : List (Option (List Nat)) :=
  (byteStarts file_size part_size).map
    (fun b => calculate_tree_hash H (readRange file b part_size) part_size)

/-- The completeness guard of `glacier.py` lines 165-173: `if
len(list_of_checksums) != num_parts:` recompute everything, `else` keep the
collected list as is. -/
def postPoolChecksums (H : List Nat → List Nat) (file : List Nat)
    (file_size part_size num_parts : Nat) (cs : List (Option (List Nat))) :
    List (Option (List Nat)) :=
  if cs.length ≠ num_parts then recalcChecksums H file file_size part_size else cs

/-- The retry loop of `upload_part` (`upload.py` lines 247-272).  The local
checksum is computed once before the loop; attempt `i` either raises a
transport error (`responses i = none`) or returns the remote checksum
`some c`; a checksum mismatch raises and is caught by the same handler as a
transport error, so both retry.  The pair's second component counts the
attempts consumed.  Fuel is `MAX_UPLOAD_ATTEMPTS`, exactly the `for _ in
range(MAX_UPLOAD_ATTEMPTS)` bound, and the fuel-0 case is the `else` clause
of the `for` loop, which re-raises the last error. -/
def uploadPartLoop (localChecksum : List Nat) (responses : Nat → Option (List Nat)) :
    Nat → Nat → Except Unit (List Nat) × Nat
  | i, 0 => (Except.error (), i)
  | i, fuel + 1 =>
    match responses i with
    | none => uploadPartLoop localChecksum responses (i + 1) fuel
    | some c =>
      if c = localChecksum then (Except.ok localChecksum, i + 1)
      else uploadPartLoop localChecksum responses (i + 1) fuel

/-- `upload_part`'s attempt loop run from the first attempt with the full
retry budget. -/
def upload_part_model (localChecksum : List Nat) (responses : Nat → Option (List Nat)) :
    Except Unit (List Nat) × Nat :=
  uploadPartLoop localChecksum responses 0 MAX_UPLOAD_ATTEMPTS

theorem combineLevel_length (H : List Nat → List Nat) :
    ∀ l : List (List Nat), (combineLevel H l).length = (l.length + 1) / 2
  | [] => by simp [combineLevel]
  | [d] => by simp [combineLevel]
  | d1 :: d2 :: rest => by
      simp [combineLevel, combineLevel_length H rest]
      omega

theorem totalTreeHashGo_length_one (H : List Nat → List Nat) :
    ∀ (fuel : Nat) (tree : List (List Nat)), 0 < tree.length →
      tree.length ≤ 2 ^ fuel → (totalTreeHashGo H fuel tree).length = 1
  | 0, tree, h0, h1 => by
      simp [totalTreeHashGo]
      omega
  | fuel + 1, tree, h0, h1 => by
      rw [totalTreeHashGo]
      by_cases hlen : 1 < tree.length
      · rw [if_pos hlen]
        have hcl := combineLevel_length H tree
        have hpow : 2 ^ (fuel + 1) = 2 ^ fuel * 2 := pow_succ 2 fuel
        exact totalTreeHashGo_length_one H fuel (combineLevel H tree)
          (by omega) (by omega)
      · rw [if_neg hlen]
        omega

theorem calculate_total_tree_hash_isSome (H : List Nat → List Nat)
    (cs : List (List Nat)) (h : 0 < cs.length) :
    (calculate_total_tree_hash H cs).isSome = true := by
  unfold calculate_total_tree_hash
  have hlen := totalTreeHashGo_length_one H cs.length cs h
    (le_of_lt (Nat.lt_two_pow cs.length))
  match hres : totalTreeHashGo H cs.length cs with
  | [] => rw [hres] at hlen; simp at hlen
  | d :: rest => simp

theorem calculate_tree_hash_nil (H : List Nat → List Nat) (psz : Nat) :
    calculate_tree_hash H [] psz = none := by
  have h : min ([] : List Nat).length psz = 0 := by simp
  unfold calculate_tree_hash
  rw [h]
  rfl

theorem verifyLoop_crash (H : List Nat → List Nat) (file : List Nat) (psz : Nat) :
    ∀ (reported : List (Nat × List Nat)) (pl : Nat → Option (List Nat))
      (b : Nat) (d : List Nat),
      (b, d) ∈ reported → readRange file b psz = [] →
      verifyLoop H file psz reported pl = none
  | [], _, b, d => fun hmem _ => absurd hmem (List.not_mem_nil _)
  | (b0, d0) :: rest, pl, b, d => by
      intro hmem hempty
      rw [verifyLoop]
      rcases List.mem_cons.mp hmem with heq | hmem'
      · injection heq with h1 h2
        subst h1
        rw [hempty, calculate_tree_hash_nil]
      · cases hh : calculate_tree_hash H (readRange file b0 psz) psz with
        | none => rfl
        | some c =>
            show verifyLoop H file psz rest
              (if c = d0 then setPart pl b0 (some c) else pl) = none
            exact verifyLoop_crash H file psz rest _ b d hmem' hempty

/-- C2: `calculate_total_tree_hash` pairs adjacent digests, hashing each
concatenated pair, carrying an unpaired last digest forward unchanged, until
one digest remains; in particular a singleton is returned unchanged, two
digests give `H (d0 ++ d1)` and three give `H (H (d0 ++ d1) ++ d2)`. -/
theorem total_tree_hash_combine_identities (H : List Nat → List Nat)
    (d d0 d1 d2 : List Nat) :
    calculate_total_tree_hash H [d] = some d ∧
    calculate_total_tree_hash H [d0, d1] = some (H (d0 ++ d1)) ∧
    calculate_total_tree_hash H [d0, d1, d2] = some (H (H (d0 ++ d1) ++ d2)) :=
  ⟨rfl, rfl, rfl⟩

/-- C10: the tree-hash functions are total only on non-empty input: a
non-empty checksum list always combines down to a single digest, the empty
list makes `calculate_total_tree_hash` fail (the `tree[0]` IndexError), the
empty byte string makes `calculate_tree_hash` fail for the same reason, and
a resume whose remote-reported part starts at or beyond the end of the
local file reads an empty range and crashes the whole verification loop. -/
theorem tree_hash_empty_input_behavior :
    (∀ (H : List Nat → List Nat) (cs : List (List Nat)), cs ≠ [] →
      (calculate_total_tree_hash H cs).isSome = true) ∧
    (∀ H : List Nat → List Nat, calculate_total_tree_hash H [] = none) ∧
    (∀ (H : List Nat → List Nat) (psz : Nat), calculate_tree_hash H [] psz = none) ∧
    (∀ (H : List Nat → List Nat) (file : List Nat) (psz : Nat)
       (reported : List (Nat × List Nat)) (pl : Nat → Option (List Nat))
       (b : Nat) (d : List Nat),
      (b, d) ∈ reported → file.length ≤ b →
      verifyLoop H file psz reported pl = none) := by
  refine ⟨?_, ?_, ?_, ?_⟩
  · intro H cs hne
    exact calculate_total_tree_hash_isSome H cs (List.length_pos.mpr hne)
  · intro H
    rfl
  · intro H psz
    exact calculate_tree_hash_nil H psz
  · intro H file psz reported pl b d hmem hb
    refine verifyLoop_crash H file psz reported pl b d hmem ?_
    unfold readRange
    rw [List.drop_eq_nil_of_le hb]
    exact List.take_nil

theorem tree_hash_empty_input_behavior_wit :
    (calculate_total_tree_hash testHash [[0]]).isSome = true ∧
    verifyLoop testHash [0] 1 [(5, [7])] initPartList = none :=
  ⟨tree_hash_empty_input_behavior.1 testHash [[0]] (by decide),
   tree_hash_empty_input_behavior.2.2.2 testHash [0] 1 [(5, [7])] initPartList 5 [7]
     (by decide) (by decide)⟩

theorem ceilDiv_eq (a b : Nat) (hb : 0 < b) : ceilDiv a b = (a + b - 1) / b := by
  unfold ceilDiv
  by_cases h : a = 0
  · subst h
    rw [if_pos rfl, Nat.div_eq_of_lt (by omega)]
  · rw [if_neg h]
    have h1 : a + b - 1 = (a - 1) + b := by omega
    rw [h1, Nat.add_div_right _ hb]

theorem ceilDiv_pos_step (n s : Nat) (hn : 0 < n) (hs : 0 < s) :
    ceilDiv n s = ceilDiv (n - s) s + 1 := by
  rw [ceilDiv_eq n s hs, ceilDiv_eq (n - s) s hs]
  have h1 : n + s - 1 = (n - 1) + s := by omega
  rw [h1, Nat.add_div_right _ hs]
  rcases Nat.lt_or_ge n s with h | h
  · have h2 : n - s = 0 := by omega
    rw [h2]
    have h3 : 0 + s - 1 = s - 1 := by omega
    rw [h3, Nat.div_eq_of_lt (by omega), Nat.div_eq_of_lt (by omega)]
  · have h3 : n - s + s - 1 = n - 1 := by omega
    rw [h3]

theorem chunksEq (part : List Nat) :
    (pyRange part.length MB).map (fun pos => readRange part pos MB) =
      specLeafSplit part := by
  by_cases h : part = []
  · subst h
    simp [specLeafSplit, pyRange, ceilDiv]
  · rw [specLeafSplit, dif_neg h]
    have hlen : 0 < part.length := List.length_pos.mpr h
    have hMB : 0 < MB := by decide
    rw [pyRange, ceilDiv_pos_step part.length MB hlen hMB, List.range_succ_eq_map,
      List.map_cons, List.map_cons]
    refine congrArg₂ List.cons rfl ?_
    rw [List.map_map, List.map_map]
    have hrec := chunksEq (part.drop MB)
    rw [pyRange, List.length_drop] at hrec
    rw [← hrec, List.map_map]
    refine List.map_congr_left ?_
    intro i _
    simp only [Function.comp_apply]
    unfold readRange
    rw [List.drop_drop, Nat.succ_mul, Nat.add_comm (i * MB) MB]
termination_by part.length
decreasing_by
  have hb : 0 < part.length := List.length_pos.mpr h
  simp only [List.length_drop, MB]
  omega

/-- C8: for a part that fits its declared part-size bound,
`calculate_tree_hash` equals hashing the consecutive 1 MiB leaves of the
bytes (last leaf may be shorter) and combining the leaf digests with the
same carry-the-odd-forward rule as the root digest; consequently a
non-empty part of at most 1 MiB hashes to the plain digest of its bytes. -/
theorem part_digest_leaf_structure (H : List Nat → List Nat) (part : List Nat)
    (part_size : Nat) :
    (part.length ≤ part_size →
      calculate_tree_hash H part part_size =
        calculate_total_tree_hash H ((specLeafSplit part).map H)) ∧
    (0 < part_size → 0 < part.length → part.length ≤ MB →
      calculate_tree_hash H part part_size = some (H part)) := by
  constructor
  · intro hle
    unfold calculate_tree_hash
    rw [min_eq_left hle]
    have hmaps : (specLeafSplit part).map H =
        (pyRange part.length MB).map (fun pos => H (readRange part pos MB)) := by
      rw [← chunksEq part, List.map_map]
      rfl
    rw [hmaps]
  · intro hpsz hpos hle1
    unfold calculate_tree_hash
    have hub : 0 < min part.length part_size := lt_min hpos hpsz
    have hsub : min part.length part_size - MB = 0 := by
      have : min part.length part_size ≤ MB := le_trans (min_le_left _ _) hle1
      omega
    have h1 : ceilDiv (min part.length part_size) MB = 1 := by
      rw [ceilDiv_pos_step _ MB hub (by decide), hsub]
      rfl
    rw [pyRange, h1, show List.range 1 = [0] from rfl]
    simp only [List.map_cons, List.map_nil, Nat.zero_mul]
    unfold readRange
    rw [List.drop_zero, List.take_of_length_le hle1]
    rfl

theorem part_digest_leaf_structure_wit :
    calculate_tree_hash testHash [5] 2 =
      calculate_total_tree_hash testHash ((specLeafSplit [5]).map testHash) ∧
    calculate_tree_hash testHash [5] 2 = some (testHash [5]) :=
  ⟨(part_digest_leaf_structure testHash [5] 2).1 (by decide),
   (part_digest_leaf_structure testHash [5] 2).2 (by decide) (by decide) (by decide)⟩

theorem uploadPartLoop_ok_iff (lc : List Nat) (resp : Nat → Option (List Nat)) :
    ∀ (fuel i : Nat),
      ((uploadPartLoop lc resp i fuel).1 = Except.ok lc ↔
        ∃ j, j < fuel ∧ resp (i + j) = some lc)
  | 0, i => by
      simp [uploadPartLoop]
  | fuel + 1, i => by
      constructor
      · intro h
        cases hr : resp i with
        | none =>
            simp only [uploadPartLoop, hr] at h
            obtain ⟨j, hj, hr2⟩ := (uploadPartLoop_ok_iff lc resp fuel (i + 1)).mp h
            refine ⟨j + 1, by omega, ?_⟩
            rw [show i + (j + 1) = i + 1 + j from by omega]
            exact hr2
        | some c =>
            by_cases hc : c = lc
            · refine ⟨0, by omega, ?_⟩
              rw [Nat.add_zero, hr, hc]
            · simp only [uploadPartLoop, hr, if_neg hc] at h
              obtain ⟨j, hj, hr2⟩ := (uploadPartLoop_ok_iff lc resp fuel (i + 1)).mp h
              refine ⟨j + 1, by omega, ?_⟩
              rw [show i + (j + 1) = i + 1 + j from by omega]
              exact hr2
      · rintro ⟨j, hj, hr2⟩
        cases hr : resp i with
        | none =>
            simp only [uploadPartLoop, hr]
            refine (uploadPartLoop_ok_iff lc resp fuel (i + 1)).mpr ?_
            cases j with
            | zero =>
                rw [Nat.add_zero, hr] at hr2
                exact Option.noConfusion hr2
            | succ j' =>
                refine ⟨j', by omega, ?_⟩
                rw [show i + 1 + j' = i + (j' + 1) from by omega]
                exact hr2
        | some c =>
            by_cases hc : c = lc
            · simp only [uploadPartLoop, hr, if_pos hc]
            · simp only [uploadPartLoop, hr, if_neg hc]
              refine (uploadPartLoop_ok_iff lc resp fuel (i + 1)).mpr ?_
              cases j with
              | zero =>
                  rw [Nat.add_zero, hr] at hr2
                  injection hr2 with hr3
                  exact absurd hr3 hc
              | succ j' =>
                  refine ⟨j', by omega, ?_⟩
                  rw [show i + 1 + j' = i + (j' + 1) from by omega]
                  exact hr2

theorem uploadPartLoop_att (lc : List Nat) (resp : Nat → Option (List Nat)) :
    ∀ (fuel i : Nat), (uploadPartLoop lc resp i fuel).2 ≤ i + fuel
  | 0, i => by
      simp [uploadPartLoop]
  | fuel + 1, i => by
      cases hr : resp i with
      | none =>
          simp only [uploadPartLoop, hr]
          have h := uploadPartLoop_att lc resp fuel (i + 1)
          omega
      | some c =>
          by_cases hc : c = lc
          · simp only [uploadPartLoop, hr, if_pos hc]
            omega
          · simp only [uploadPartLoop, hr, if_neg hc]
            have h := uploadPartLoop_att lc resp fuel (i + 1)
            omega

/-- C5: a per-part checksum mismatch (like a transport error) is retried
rather than aborting on the first failure: `upload_part`'s loop succeeds,
returning the locally computed digest (the Uploaded state), exactly when
some attempt among the first `MAX_UPLOAD_ATTEMPTS = 10` returns a remote
checksum matching the local digest, and it never consumes more than 10
attempts. -/
theorem upload_part_retry_semantics (lc : List Nat) (resp : Nat → Option (List Nat)) :
    ((upload_part_model lc resp).1 = Except.ok lc ↔
      ∃ i, i < MAX_UPLOAD_ATTEMPTS ∧ resp i = some lc) ∧
    (upload_part_model lc resp).2 ≤ MAX_UPLOAD_ATTEMPTS := by
  constructor
  · have h := uploadPartLoop_ok_iff lc resp MAX_UPLOAD_ATTEMPTS 0
    unfold upload_part_model
    simpa using h
  · have h := uploadPartLoop_att lc resp MAX_UPLOAD_ATTEMPTS 0
    unfold upload_part_model
    simpa using h

theorem ceilDiv_le_iff (a b c : Nat) (hb : 0 < b) : ceilDiv a b ≤ c ↔ a ≤ c * b := by
  rw [ceilDiv_eq a b hb]
  have h1 : (a + b - 1) / b ≤ c ↔ (a + b - 1) / b < c + 1 := by omega
  rw [h1, Nat.div_lt_iff_lt_mul hb]
  have h2 : (c + 1) * b = c * b + b := by ring
  rw [h2]
  omega

theorem newPartSizeGo_le (fs : Nat) :
    ∀ (fuel k : Nat), k ≤ 12 → 13 ≤ fuel + k → fs ≤ 4096 * (10000 * MB) →
      ∃ m, k ≤ m ∧ m ≤ 12 ∧ newPartSizeGo fs fuel (2 ^ k) = some (2 ^ m) ∧
        fs ≤ 2 ^ m * (10000 * MB) ∧
        ∀ j, k ≤ j → j < m → 2 ^ j * (10000 * MB) < fs
  | 0, k => by
      intro hk hfk _
      exact absurd hfk (by omega)
  | fuel + 1, k => by
      intro hk hfk hfs
      rw [newPartSizeGo]
      by_cases hcond : 2 ^ k * (10000 * MB) < fs
      · rw [if_pos hcond]
        have hpow : 2 * 2 ^ k = 2 ^ (k + 1) := by
          rw [pow_succ]
          ring
        by_cases hbig : MAX_PART_SIZE_MB < 2 * 2 ^ k
        · exfalso
          have h2 : (2 : Nat) ^ 12 = 4096 := by norm_num
          have hk12 : k = 12 := by
            by_contra hne
            have hle : 2 ^ (k + 1) ≤ 2 ^ 12 := Nat.pow_le_pow_right (by omega) (by omega)
            rw [hpow] at hbig
            unfold MAX_PART_SIZE_MB at hbig
            omega
          subst hk12
          rw [h2] at hcond
          omega
        · rw [if_neg hbig]
          have hk11 : k + 1 ≤ 12 := by
            by_contra hgt
            have hk12 : k = 12 := by omega
            subst hk12
            have h3 : (2 : Nat) * 2 ^ 12 = 8192 := by norm_num
            unfold MAX_PART_SIZE_MB at hbig
            omega
          rw [hpow]
          obtain ⟨m, hm1, hm2, hm3, hm4, hm5⟩ :=
            newPartSizeGo_le fs fuel (k + 1) (by omega) (by omega) hfs
          refine ⟨m, by omega, hm2, hm3, hm4, ?_⟩
          intro j hj1 hj2
          rcases Nat.eq_or_lt_of_le hj1 with heq | hlt
          · rw [← heq]
            exact hcond
          · exact hm5 j (by omega) hj2
      · rw [if_neg hcond]
        exact ⟨k, le_refl k, hk, rfl, by omega, fun j hj1 hj2 => by omega⟩

theorem newPartSizeGo_none (fs : Nat) :
    ∀ (fuel k : Nat), k ≤ 12 → 13 ≤ fuel + k → 4096 * (10000 * MB) < fs →
      newPartSizeGo fs fuel (2 ^ k) = none
  | 0, k => by
      intro hk hfk _
      exact absurd hfk (by omega)
  | fuel + 1, k => by
      intro hk hfk hfs
      rw [newPartSizeGo]
      have h2 : (2 : Nat) ^ 12 = 4096 := by norm_num
      have hle : 2 ^ k ≤ 2 ^ 12 := Nat.pow_le_pow_right (by omega) hk
      have hcond : 2 ^ k * (10000 * MB) < fs := by
        have hmul : 2 ^ k * (10000 * MB) ≤ 2 ^ 12 * (10000 * MB) :=
          Nat.mul_le_mul_right _ hle
        rw [h2] at hmul
        omega
      rw [if_pos hcond]
      by_cases hbig : MAX_PART_SIZE_MB < 2 * 2 ^ k
      · rw [if_pos hbig]
      · rw [if_neg hbig]
        have hk11 : k + 1 ≤ 12 := by
          by_contra hgt
          have hk12 : k = 12 := by omega
          subst hk12
          have h3 : (2 : Nat) * 2 ^ 12 = 8192 := by norm_num
          unfold MAX_PART_SIZE_MB at hbig
          omega
        rw [show (2 : Nat) * 2 ^ k = 2 ^ (k + 1) from by rw [pow_succ]; ring]
        exact newPartSizeGo_none fs fuel (k + 1) (by omega) (by omega) hfs

/-- C3: when the requested part size would need more than
`MAX_NUMBER_OF_PARTS = 10000` parts, the planner replans; the replanned
size is the smallest power of two (in MB, in `[1, 4096]`, i.e. exponent at
most 12) whose part count is at most 10000 - every smaller power of two
still exceeds 10000 parts - and replanning fails (the "more than 40 TB"
error) exactly when the size exceeds `4096 MiB * 10000`. -/
theorem plan_part_size_minimal_power_of_two (fs : Nat) :
    (4096 * (10000 * MB) < fs → find_new_part_size fs = none) ∧
    (fs ≤ 4096 * (10000 * MB) →
      ∃ m, m ≤ 12 ∧ find_new_part_size fs = some (2 ^ m) ∧
        ceilDiv fs (2 ^ m * MB) ≤ MAX_NUMBER_OF_PARTS ∧
        ∀ j, j < m → MAX_NUMBER_OF_PARTS < ceilDiv fs (2 ^ j * MB)) ∧
    (∀ psz_mb : Nat,
      (ceilDiv fs (psz_mb * MB) ≤ MAX_NUMBER_OF_PARTS →
        plan_part_size fs psz_mb = some psz_mb) ∧
      (MAX_NUMBER_OF_PARTS < ceilDiv fs (psz_mb * MB) →
        plan_part_size fs psz_mb = find_new_part_size fs)) := by
  have hMBpos : 0 < MB := by decide
  refine ⟨?_, ?_, ?_⟩
  · intro h
    have hnone := newPartSizeGo_none fs 13 0 (by omega) (by omega) h
    simpa [find_new_part_size, MIN_PART_SIZE_MB] using hnone
  · intro h
    obtain ⟨m, _, hm2, hm3, hm4, hm5⟩ := newPartSizeGo_le fs 13 0 (by omega) (by omega) h
    refine ⟨m, hm2, ?_, ?_, ?_⟩
    · simpa [find_new_part_size, MIN_PART_SIZE_MB] using hm3
    · have hpos : 0 < 2 ^ m * MB := Nat.mul_pos (pow_pos (by omega) m) hMBpos
      rw [ceilDiv_le_iff fs (2 ^ m * MB) MAX_NUMBER_OF_PARTS hpos]
      have heq : MAX_NUMBER_OF_PARTS * (2 ^ m * MB) = 2 ^ m * (10000 * MB) := by
        unfold MAX_NUMBER_OF_PARTS
        ring
      rw [heq]
      exact hm4
    · intro j hj
      have hposj : 0 < 2 ^ j * MB := Nat.mul_pos (pow_pos (by omega) j) hMBpos
      have hiff := ceilDiv_le_iff fs (2 ^ j * MB) MAX_NUMBER_OF_PARTS hposj
      have heq : MAX_NUMBER_OF_PARTS * (2 ^ j * MB) = 2 ^ j * (10000 * MB) := by
        unfold MAX_NUMBER_OF_PARTS
        ring
      rw [heq] at hiff
      have hlt := hm5 j (by omega) hj
      by_contra hnot
      push_neg at hnot
      have := hiff.mp hnot
      omega
  · intro psz_mb
    constructor
    · intro h
      unfold plan_part_size
      rw [if_neg (by omega)]
    · intro h
      unfold plan_part_size
      rw [if_pos h]

theorem plan_part_size_minimal_power_of_two_wit :
    plan_part_size 31457280001 1 = find_new_part_size 31457280001 ∧
    find_new_part_size (4096 * (10000 * MB) + 1) = none :=
  ⟨((plan_part_size_minimal_power_of_two 31457280001).2.2 1).2 (by decide),
   (plan_part_size_minimal_power_of_two (4096 * (10000 * MB) + 1)).1 (by decide)⟩

theorem verifyLoop_unreported (H : List Nat → List Nat) (file : List Nat) (psz : Nat) :
    ∀ (reported : List (Nat × List Nat)) (pl pl' : Nat → Option (List Nat)),
      verifyLoop H file psz reported pl = some pl' →
      ∀ b, b ∉ reported.map Prod.fst → pl' b = pl b
  | [], pl, pl' => by
      intro h b _
      rw [verifyLoop] at h
      injection h with h1
      rw [← h1]
  | (b0, d0) :: rest, pl, pl' => by
      intro h b hb
      rw [verifyLoop] at h
      rw [List.map_cons] at hb
      have hb0 : b ≠ b0 := fun he => hb (by rw [he]; exact List.mem_cons_self _ _)
      have hbr : b ∉ rest.map Prod.fst := fun hm => hb (List.mem_cons_of_mem _ hm)
      cases hh : calculate_tree_hash H (readRange file b0 psz) psz with
      | none =>
          rw [hh] at h
          exact Option.noConfusion h
      | some c =>
          rw [hh] at h
          have hrec := verifyLoop_unreported H file psz rest _ pl' h b hbr
          rw [hrec]
          by_cases hc : c = d0
          · rw [if_pos hc]
            simp [setPart, hb0]
          · rw [if_neg hc]

theorem verifyLoop_reported (H : List Nat → List Nat) (file : List Nat) (psz : Nat) :
    ∀ (reported : List (Nat × List Nat)) (pl pl' : Nat → Option (List Nat)),
      (reported.map Prod.fst).Nodup →
      verifyLoop H file psz reported pl = some pl' →
      ∀ b d, (b, d) ∈ reported →
        pl' b = if calculate_tree_hash H (readRange file b psz) psz = some d
                then some d else pl b
  | [], pl, pl' => by
      intro _ _ b d hmem
      exact absurd hmem (List.not_mem_nil _)
  | (b0, d0) :: rest, pl, pl' => by
      intro hnd h b d hmem
      rw [verifyLoop] at h
      rw [List.map_cons] at hnd
      have hnd' := List.nodup_cons.mp hnd
      cases hh : calculate_tree_hash H (readRange file b0 psz) psz with
      | none =>
          rw [hh] at h
          exact Option.noConfusion h
      | some c =>
          rw [hh] at h
          rcases List.mem_cons.mp hmem with heq | hmem'
          · injection heq with h1 h2
            subst h1
            subst h2
            rw [hh]
            have hrec := verifyLoop_unreported H file psz rest _ pl' h b hnd'.1
            rw [hrec]
            by_cases hc : c = d
            · rw [if_pos hc, if_pos (show some c = some d from by rw [hc])]
              simp [setPart, hc]
            · rw [if_neg hc,
                if_neg (show ¬some c = some d from fun hcd => hc (Option.some.inj hcd))]
          · have hbne : b ≠ b0 := by
              intro he
              have hbmem : b ∈ rest.map Prod.fst := List.mem_map_of_mem Prod.fst hmem'
              rw [he] at hbmem
              exact hnd'.1 hbmem
            have hrec := verifyLoop_reported H file psz rest _ pl' hnd'.2 h b d hmem'
            rw [hrec]
            by_cases hhb : calculate_tree_hash H (readRange file b psz) psz = some d
            · rw [if_pos hhb, if_pos hhb]
            · rw [if_neg hhb, if_neg hhb]
              by_cases hc : c = d0
              · rw [if_pos hc]
                simp [setPart, hbne]
              · rw [if_neg hc]

/-- C7: on resume, a remote-reported part whose locally recomputed tree
hash over the same byte range equals the reported digest is recorded in the
part list (Verified) and excluded from the upload set; a reported part with
a differing digest, and any part never reported, stays unrecorded (Pending)
and is scheduled for upload. -/
theorem resume_verifier_classification (H : List Nat → List Nat) (file : List Nat)
    (part_size : Nat) (reported : List (Nat × List Nat)) (pl : Nat → Option (List Nat))
    (hnd : (reported.map Prod.fst).Nodup)
    (hrun : verifyLoop H file part_size reported initPartList = some pl) :
    (∀ b d, (b, d) ∈ reported →
      (calculate_tree_hash H (readRange file b part_size) part_size = some d →
        pl b = some d ∧ b ∉ pendingJobs file.length part_size pl) ∧
      (calculate_tree_hash H (readRange file b part_size) part_size ≠ some d →
        pl b = none ∧ (b ∈ byteStarts file.length part_size →
          b ∈ pendingJobs file.length part_size pl))) ∧
    (∀ b, b ∉ reported.map Prod.fst →
      pl b = none ∧ (b ∈ byteStarts file.length part_size →
        b ∈ pendingJobs file.length part_size pl)) := by
  constructor
  · intro b d hmem
    have hcls := verifyLoop_reported H file part_size reported initPartList pl hnd hrun b d hmem
    constructor
    · intro hh
      rw [if_pos hh] at hcls
      refine ⟨hcls, ?_⟩
      unfold pendingJobs
      intro hmemf
      have hp := (List.mem_filter.mp hmemf).2
      rw [hcls] at hp
      simp at hp
    · intro hh
      rw [if_neg hh] at hcls
      have hplb : pl b = none := hcls
      refine ⟨hplb, ?_⟩
      intro hbs
      unfold pendingJobs
      refine List.mem_filter.mpr ⟨hbs, ?_⟩
      rw [hplb]
      rfl
  · intro b hbr
    have hcls := verifyLoop_unreported H file part_size reported initPartList pl hrun b hbr
    have hplb : pl b = none := hcls
    refine ⟨hplb, ?_⟩
    intro hbs
    unfold pendingJobs
    refine List.mem_filter.mpr ⟨hbs, ?_⟩
    rw [hplb]
    rfl

theorem resume_verifier_classification_wit :
    (setPart initPartList 0 (some [1])) 0 = some [1] ∧
    0 ∉ pendingJobs 2 1 (setPart initPartList 0 (some [1])) ∧
    (setPart initPartList 0 (some [1])) 1 = none ∧
    1 ∈ pendingJobs 2 1 (setPart initPartList 0 (some [1])) := by
  have h := resume_verifier_classification testHash [0, 1] 1 [(0, [1])]
    (setPart initPartList 0 (some [1])) (by decide) rfl
  refine ⟨?_, ?_, ?_, ?_⟩
  · exact ((h.1 0 [1] (by decide)).1 rfl).1
  · exact ((h.1 0 [1] (by decide)).1 rfl).2
  · exact (h.2 1 (by decide)).1
  · exact (h.2 1 (by decide)).2 (by decide)

theorem fillResults_not_mem :
    ∀ (rs : List (Nat × List Nat)) (pl : Nat → Option (List Nat)) (b : Nat),
      b ∉ rs.map Prod.fst → fillResults pl rs b = pl b
  | [], pl, b => fun _ => rfl
  | (k, v) :: rest, pl, b => by
      intro hb
      rw [List.map_cons] at hb
      have hbk : b ≠ k := fun he => hb (by rw [he]; exact List.mem_cons_self _ _)
      have hbr : b ∉ rest.map Prod.fst := fun hm => hb (List.mem_cons_of_mem _ hm)
      have hstep : fillResults pl ((k, v) :: rest) =
          fillResults (setPart pl k (some v)) rest := rfl
      rw [hstep, fillResults_not_mem rest _ b hbr]
      simp [setPart, hbk]

theorem fillResults_mem :
    ∀ (rs : List (Nat × List Nat)) (pl : Nat → Option (List Nat)) (b : Nat) (v : List Nat),
      (rs.map Prod.fst).Nodup → (b, v) ∈ rs → fillResults pl rs b = some v
  | [], pl, b, v => by
      intro _ hmem
      exact absurd hmem (List.not_mem_nil _)
  | (k, w) :: rest, pl, b, v => by
      intro hnd hmem
      rw [List.map_cons] at hnd
      have hnd' := List.nodup_cons.mp hnd
      have hstep : fillResults pl ((k, w) :: rest) =
          fillResults (setPart pl k (some w)) rest := rfl
      rw [hstep]
      rcases List.mem_cons.mp hmem with heq | hmem'
      · injection heq with h1 h2
        subst h1
        subst h2
        rw [fillResults_not_mem rest _ b hnd'.1]
        simp [setPart]
      · exact fillResults_mem rest _ b v hnd'.2 hmem'

theorem fillResults_perm (pl : Nat → Option (List Nat)) (rs1 rs2 : List (Nat × List Nat))
    (hperm : rs1.Perm rs2) (hnd : (rs1.map Prod.fst).Nodup) :
    fillResults pl rs1 = fillResults pl rs2 := by
  funext b
  have hpermf : (rs1.map Prod.fst).Perm (rs2.map Prod.fst) := hperm.map Prod.fst
  have hnd2 : (rs2.map Prod.fst).Nodup := hpermf.nodup_iff.mp hnd
  by_cases hb : b ∈ rs1.map Prod.fst
  · obtain ⟨p, hp, hpb⟩ := List.mem_map.mp hb
    obtain ⟨b', v⟩ := p
    have hb' : b' = b := hpb
    subst hb'
    rw [fillResults_mem rs1 pl b' v hnd hp,
        fillResults_mem rs2 pl b' v hnd2 (hperm.mem_iff.mp hp)]
  · have hb2 : b ∉ rs2.map Prod.fst := fun hm => hb (hpermf.mem_iff.mpr hm)
    rw [fillResults_not_mem rs1 pl b hb, fillResults_not_mem rs2 pl b hb2]

theorem okResults_map_ok :
    ∀ rs : List (Nat × List Nat),
      okResults (rs.map (fun x => (x.1, Except.ok x.2))) = rs
  | [] => rfl
  | (b, d) :: rest => by
      rw [List.map_cons]
      show (b, d) :: okResults (rest.map (fun x => (x.1, Except.ok x.2))) = (b, d) :: rest
      rw [okResults_map_ok rest]

theorem firstErr_map_ok :
    ∀ rs : List (Nat × List Nat),
      firstErr (rs.map (fun x => (x.1, Except.ok x.2))) = none
  | [] => rfl
  | (b, d) :: rest => by
      rw [List.map_cons]
      show firstErr (rest.map (fun x => (x.1, Except.ok x.2))) = none
      exact firstErr_map_ok rest

/-- C9: the checksum list handed to the root digest is indexed by byte
start, not by completion order: when every part future succeeds, any two
completion orders of the same per-part results (any permutation, with each
part completing once) leave `afterPool` - and hence the digest list and the
root digest computed from it - identical. -/
theorem root_digest_completion_order_invariant (uploadId file_size part_size : Nat)
    (pl : Nat → Option (List Nat)) (rs1 rs2 : List (Nat × List Nat))
    (hperm : rs1.Perm rs2) (hnd : (rs1.map Prod.fst).Nodup) :
    afterPool uploadId file_size part_size pl
        (rs1.map (fun x => (x.1, Except.ok x.2))) [] =
      afterPool uploadId file_size part_size pl
        (rs2.map (fun x => (x.1, Except.ok x.2))) [] := by
  have h1 : ∀ rs : List (Nat × List Nat),
      afterPool uploadId file_size part_size pl
          (rs.map (fun x => (x.1, Except.ok x.2))) [] =
        PoolOutcome.filled ((byteStarts file_size part_size).map (fillResults pl rs)) := by
    intro rs
    unfold afterPool
    rw [if_neg (by decide), firstErr_map_ok rs, okResults_map_ok rs]
  rw [h1 rs1, h1 rs2, fillResults_perm pl rs1 rs2 hperm hnd]

theorem root_digest_completion_order_invariant_wit :
    afterPool 3 2 1 initPartList
        ([((0 : Nat), [1]), (1, [2])].map (fun x => (x.1, Except.ok x.2))) [] =
      afterPool 3 2 1 initPartList
        ([((1 : Nat), [2]), (0, [1])].map (fun x => (x.1, Except.ok x.2))) [] :=
  root_digest_completion_order_invariant 3 2 1 initPartList
    [(0, [1]), (1, [2])] [(1, [2]), (0, [1])]
    (List.Perm.swap ((1 : Nat), [2]) ((0 : Nat), [1]) [])
    (by decide)

/-- C6 (amended): when a part exhausts its retry budget and at least one
future is still pending when the wait returns, `multipart_upload` cancels
exactly those pending futures and raises a local abort that reports the
upload id; when the failing future was the last to finish (`not_done`
empty, e.g. a single-part upload), the collection loop re-raises the part's
exception directly, without the upload id.  In every case the failure path
issues no remote call at all - in particular it never aborts the remote
session, which stays resumable. -/
theorem pool_failure_resumable_no_abort (H : List Nat → List Nat)
    (uploadId file_size part_size : Nat) (pl : Nat → Option (List Nat))
    (done : List (Nat × Except Nat (List Nat))) (notDone : List Nat)
    (resp : CompleteResponse) :
    (notDone ≠ [] →
      multipartFinish H uploadId file_size part_size pl done notDone resp =
        (UploadOutcome.aborted uploadId notDone, [])) ∧
    (∀ e, notDone = [] → firstErr done = some e →
      multipartFinish H uploadId file_size part_size pl done notDone resp =
        (UploadOutcome.raised e, [])) ∧
    RemoteCall.abortSession ∉
      (multipartFinish H uploadId file_size part_size pl done notDone resp).2 := by
  refine ⟨?_, ?_, ?_⟩
  · intro h
    unfold multipartFinish afterPool
    rw [if_pos (List.length_pos.mpr h)]
  · intro e h1 h2
    subst h1
    unfold multipartFinish afterPool
    rw [if_neg (by decide), h2]
  · unfold multipartFinish
    cases afterPool uploadId file_size part_size pl done notDone with
    | aborted uid c => simp
    | raised e => simp
    | filled values =>
        show RemoteCall.abortSession ∉ (completeMultipart H file_size values resp).2
        unfold completeMultipart
        split
        · simp
        · split
          · simp
          · simp

/-- C6 counterexample: a run whose only part exhausted its retries (its
future is in `done` with a stored exception and nothing was left pending)
re-raises the bare error: the outcome carries no upload id, unlike the
claimed `UploadFailed`-with-session-id outcome. -/
theorem pool_failure_without_upload_id_cex :
    (multipartFinish testHash 42 2 1 initPartList [(0, Except.error 7)] []
        ⟨[0], 0, 0⟩).1 = UploadOutcome.raised 7 ∧
    UploadOutcome.raised 7 ≠ UploadOutcome.aborted 42 [] := by
  constructor
  · rfl
  · decide

theorem pool_failure_resumable_no_abort_wit :
    multipartFinish testHash 42 2 1 initPartList [] [5] ⟨[0], 0, 0⟩ =
      (UploadOutcome.aborted 42 [5], []) ∧
    multipartFinish testHash 42 2 1 initPartList [(0, Except.error 7)] [] ⟨[0], 0, 0⟩ =
      (UploadOutcome.raised 7, []) :=
  ⟨(pool_failure_resumable_no_abort testHash 42 2 1 initPartList [] [5] ⟨[0], 0, 0⟩).1
      (by decide),
   (pool_failure_resumable_no_abort testHash 42 2 1 initPartList
      [(0, Except.error 7)] [] ⟨[0], 0, 0⟩).2.1 7 rfl rfl⟩

/-- C1 (amended): the completion step issues the completion request
carrying the file size and the locally computed root digest, and then
reports both the local digest and the remote-returned checksum; it performs
no comparison between them and succeeds regardless of whether they
match. -/
theorem completion_reports_both_checksums (H : List Nat → List Nat) (file_size : Nat)
    (values : List (Option (List Nat))) (resp : CompleteResponse)
    (cs : List (List Nat)) (th : List Nat)
    (hseq : seqOption values = some cs)
    (hhash : calculate_total_tree_hash H cs = some th) :
    completeMultipart H file_size values resp =
      (UploadOutcome.success th resp.checksum resp.location resp.archiveId,
       [RemoteCall.completeSession file_size th]) := by
  unfold completeMultipart
  rw [hseq]
  show (match calculate_total_tree_hash H cs with
    | none => (UploadOutcome.crashed, [])
    | some th =>
      (UploadOutcome.success th resp.checksum resp.location resp.archiveId,
       [RemoteCall.completeSession file_size th])) =
    (UploadOutcome.success th resp.checksum resp.location resp.archiveId,
     [RemoteCall.completeSession file_size th])
  rw [hhash]

/-- C1 counterexample: a run reaching completion with local root digest
`[3]` while the remote store returns checksum `[7]` still ends in
`success`; no `IntegrityViolation` failure exists in the code. -/
theorem completion_succeeds_on_mismatch_cex :
    (completeMultipart testHash 4 [some [3]] ⟨[7], 0, 0⟩).1 =
      UploadOutcome.success [3] [7] 0 0 ∧
    ([3] : List Nat) ≠ [7] := by
  constructor
  · rfl
  · decide

theorem completion_reports_both_checksums_wit :
    completeMultipart testHash 9 [some [3]] ⟨[8], 1, 2⟩ =
      (UploadOutcome.success [3] [8] 1 2, [RemoteCall.completeSession 9 [3]]) :=
  completion_reports_both_checksums testHash 9 [some [3]] ⟨[8], 1, 2⟩ [[3]] [3] rfl rfl

/-- C4 (code bug): the completeness guard of `glacier.py` only compares the
LENGTH of the checksum list with `num_parts`; a list of the right length
with an unset (`None`) entry passes the guard unchanged, so the root digest
is computed from a sequence with a missing entry instead of triggering the
full sequential recomputation. -/
theorem post_pool_guard_misses_unset_entry :
    postPoolChecksums testHash [0, 1] 2 1 2 [some [9], none] = [some [9], none] ∧
    none ∈ postPoolChecksums testHash [0, 1] 2 1 2 [some [9], none] ∧
    postPoolChecksums testHash [0, 1] 2 1 2 [some [9], none] ≠
      recalcChecksums testHash [0, 1] 2 1 := by
  refine ⟨rfl, by decide, by decide⟩
